import Mathlib

/-!
# temporal-ffmpeg-pipeline: progress parsing, process supervision and retry policy

A shallow embedding of `activity.go` and `workflow.go`.

* Go strings are byte sequences; a string is a `List Nat` of byte values and
  string literals of the source are written `utf8 "..."`.
* `int64` values are `Int`s; every arithmetic operation of the source is
  followed by `wrapInt64`.
* `float64` values are the rationals they denote; every floating-point
  operation is the exact operation followed by `roundFloat64`.
-/

namespace FFmpegPipeline

/-! ## Go strings -/

/-- A Go string: its sequence of bytes. -/
abbrev GoString := List Nat

/-- UTF-8 encoding of one code point. -/
def encodeRune (c : Nat) : List Nat :=
  if c < 0x80 then [c]
  else if c < 0x800 then [0xC0 + c / 0x40, 0x80 + c % 0x40]
  else if c < 0x10000 then [0xE0 + c / 0x1000, 0x80 + c / 0x40 % 0x40, 0x80 + c % 0x40]
  else [0xF0 + c / 0x40000, 0x80 + c / 0x1000 % 0x40, 0x80 + c / 0x40 % 0x40, 0x80 + c % 0x40]

/-- UTF-8 encoding of a list of characters. -/
def encodeRunes : List Char → GoString
  | [] => []
  | c :: cs => encodeRune c.toNat ++ encodeRunes cs

/-- The bytes of a string literal of the source. -/
def utf8 (s : String) : GoString := encodeRunes s.toList

/-- The byte `':'`. -/
def colon : Nat := 58

/-- The byte `'.'`. -/
def dot : Nat := 46

/-- The byte `'0'`. -/
def zero : Nat := 48

/-- The test `'0' <= c && c <= '9'`. -/
def isDigit (c : Nat) : Bool := decide (48 ≤ c) && decide (c ≤ 57)

/-- `strings.Split(s, sep)` for a one-byte separator: the pieces of `s` between
the occurrences of `sep`; there is always at least one piece. -/
def stringsSplit (sep : Nat) : GoString → List GoString
  | [] => [[]]
  | c :: cs =>
    if c = sep then [] :: stringsSplit sep cs
    else
      match stringsSplit sep cs with
      | [] => [[c]]
      | p :: ps => (c :: p) :: ps

/-- `strings.Repeat("0", n)`. -/
def repeatZero (n : Nat) : GoString := List.replicate n zero

/-! ## int64 arithmetic -/

/-- Reduction of an integer to the `int64` value with the same low 64 bits. -/
def wrapInt64 (x : Int) : Int := (x + 2 ^ 63) % 2 ^ 64 - 2 ^ 63

/-- The `int64` product. -/
def mulInt64 (a b : Int) : Int := wrapInt64 (a * b)

/-- The `int64` sum. -/
def addInt64 (a b : Int) : Int := wrapInt64 (a + b)

/-! ## strconv.ParseInt -/

/-- The error of a `strconv` conversion, `none` standing for `nil`. -/
inductive NumError where
  | syntaxError
  | rangeError
  deriving DecidableEq, Repr

/-- The largest `uint64`. -/
def maxUint64 : Nat := 2 ^ 64 - 1

/-- The digit loop of `strconv.ParseUint(s, 10, 64)`, started with the
accumulator `n`: a byte that is not a decimal digit is a syntax error with
value 0 (in base 10 a letter is a digit value of 10 or more, rejected like any
other byte), an overflow of the accumulator is a range error with value
`maxUint64`, and the loop stops at the first of the two. Below the cutoff
`maxUint64 / 10 + 1` the product `n * 10` does not overflow; the sum is reduced
modulo `2 ^ 64` as in the source. -/
def parseUintLoop (n : Nat) : GoString → Nat × Option NumError
  | [] => (n, none)
  | c :: cs =>
    if isDigit c then
      let d := c - 48
      if n ≥ maxUint64 / 10 + 1 then (maxUint64, some NumError.rangeError)
      else
        let n10 := n * 10
        let n1 := (n10 + d) % 2 ^ 64
        if n1 < n10 ∨ n1 > maxUint64 then (maxUint64, some NumError.rangeError)
        else parseUintLoop n1 cs
    else (0, some NumError.syntaxError)

/-- `strconv.ParseUint(s, 10, 64)`. -/
def parseUint (s : GoString) : Nat × Option NumError :=
  if s = [] then (0, some NumError.syntaxError) else parseUintLoop 0 s

/-- `strconv.ParseInt(s, 10, 64)`: value and error. -/
def parseIntErr (s : GoString) : Int × Option NumError :=
  match s with
  | [] => (0, some NumError.syntaxError)
  | c :: cs =>
    let neg := decide (c = 45)
    let rest := if c = 43 ∨ c = 45 then cs else c :: cs
    match parseUint rest with
    | (_, some NumError.syntaxError) => (0, some NumError.syntaxError)
    | (un, _) =>
      if ¬ neg ∧ un ≥ 2 ^ 63 then (2 ^ 63 - 1, some NumError.rangeError)
      else if neg ∧ un > 2 ^ 63 then (-(2 ^ 63), some NumError.rangeError)
      else if neg then (wrapInt64 (-wrapInt64 un), none)
      else (wrapInt64 un, none)

/-- The value of `strconv.ParseInt(s, 10, 64)`, its error discarded, as in
`hours, _ := strconv.ParseInt(parts[0], 10, 64)`. -/
def parseInt (s : GoString) : Int := (parseIntErr s).1

/-! ## activity.go: the progress parser -/

/-- The normalisation of the fraction in `timeToMilliseconds`: cut to three
bytes when longer, padded with `'0'` on the right when shorter. -/
def normalizeMs (msStr : GoString) : GoString :=
  if msStr.length > 3 then msStr.take 3
  else if msStr.length < 3 then msStr ++ repeatZero (3 - msStr.length)
  else msStr

/-- The variable `milliseconds` of `timeToMilliseconds`, from `secondsParts`. -/
def millisecondsOf (secondsParts : List GoString) : Int :=
  match secondsParts with
  | _ :: msStr :: _ => parseInt (normalizeMs msStr)
  | _ => 0

/-- `timeToMilliseconds` converts ffmpeg time format (HH:MM:SS.MS) to
milliseconds. -/
def timeToMilliseconds (timeStr : GoString) : Int :=
  match stringsSplit colon timeStr with
  | [p0, p1, p2] =>
    let hours := parseInt p0
    let minutes := parseInt p1
    let secondsParts := stringsSplit dot p2
    let seconds := parseInt (secondsParts.headD [])
    let milliseconds := millisecondsOf secondsParts
    addInt64
      (mulInt64 (addInt64 (addInt64 (mulInt64 hours 3600) (mulInt64 minutes 60)) seconds) 1000)
      milliseconds
  | _ => 0

/-! ## activity.go: the two patterns

`progressRegex` is `time=(\d+:\d+:\d+\.\d+)` and `durationRegex` is
`Duration: (\d+:\d+:\d+\.\d+)`. Both are a literal followed by the same group.
Every `\d+` of the group is followed by a literal byte that is not a digit, or
ends the pattern, so the greedy leftmost match takes each digit run whole. -/

/-- One `\d+` at the start of `s`: the digit run, which must not be empty, and
the rest of `s`. -/
def matchDigits (s : GoString) : Option (GoString × GoString) :=
  if s.takeWhile isDigit = [] then none
  else some (s.takeWhile isDigit, s.dropWhile isDigit)

/-- One literal byte at the start of `s`: the rest of `s`. -/
def matchByte (b : Nat) : GoString → Option GoString
  | [] => none
  | c :: cs => if c = b then some cs else none

/-- A literal at the start of `s`: the rest of `s`. -/
def matchLiteral : GoString → GoString → Option GoString
  | [], s => some s
  | _ :: _, [] => none
  | b :: bs, c :: cs => if c = b then matchLiteral bs cs else none

/-- The group `(\d+:\d+:\d+\.\d+)` at the start of `s`: the text it captures. -/
def matchTimeGroup (s : GoString) : Option GoString :=
  match matchDigits s with
  | none => none
  | some (h, r1) =>
    match matchByte colon r1 with
    | none => none
    | some r2 =>
      match matchDigits r2 with
      | none => none
      | some (m, r3) =>
        match matchByte colon r3 with
        | none => none
        | some r4 =>
          match matchDigits r4 with
          | none => none
          | some (sec, r5) =>
            match matchByte dot r5 with
            | none => none
            | some r6 =>
              match matchDigits r6 with
              | none => none
              | some (f, _) => some (h ++ colon :: m ++ colon :: sec ++ dot :: f)

/-- The pattern `lit(\d+:\d+:\d+\.\d+)` at the start of `s`. -/
def matchAt (lit s : GoString) : Option GoString :=
  match matchLiteral lit s with
  | none => none
  | some r => matchTimeGroup r

/-- `FindStringSubmatch` for the pattern `lit(\d+:\d+:\d+\.\d+)`: the capture of
the leftmost match, `none` when `len(match) > 1` is false. -/
def findStringSubmatch (lit : GoString) : GoString → Option GoString
  | [] => matchAt lit []
  | c :: cs =>
    match matchAt lit (c :: cs) with
    | some cap => some cap
    | none => findStringSubmatch lit cs

/-- `progressRegex.FindStringSubmatch(line)`, reduced to `progressMatch[1]`. -/
def progressRegex (line : GoString) : Option GoString :=
  findStringSubmatch (utf8 "time=") line

/-- `durationRegex.FindStringSubmatch(line)`, reduced to `durationMatch[1]`. -/
def durationRegex (line : GoString) : Option GoString :=
  findStringSubmatch (utf8 "Duration: ") line

/-! ## float64 arithmetic

A finite `float64` is the rational it denotes. The exponent range is not
modelled: the operands below come from `int64` values, and every intermediate
value is 0 or has a magnitude between `2 ^ (-63)` and `2 ^ 70`
(`calculatePercentage_range`). -/

/-- Rounding to the nearest integer, ties to the even one. -/
def roundHalfEven (q : ℚ) : ℤ :=
  if q - ⌊q⌋ < 1 / 2 then ⌊q⌋
  else if 1 / 2 < q - ⌊q⌋ then ⌊q⌋ + 1
  else if ⌊q⌋ % 2 = 0 then ⌊q⌋
  else ⌊q⌋ + 1

/-- Rounding to the nearest `float64` (53 significant bits), ties to even. -/
def roundFloat64 (x : ℚ) : ℚ :=
  if x = 0 then 0
  else roundHalfEven (x / 2 ^ (Int.log 2 |x| - 52)) * 2 ^ (Int.log 2 |x| - 52)

/-- The conversion `float64(n)` of an `int64`. -/
def float64OfInt (n : Int) : ℚ := roundFloat64 n

/-- The `float64` quotient. -/
def divFloat64 (a b : ℚ) : ℚ := roundFloat64 (a / b)

/-- The `float64` product. -/
def mulFloat64 (a b : ℚ) : ℚ := roundFloat64 (a * b)

/-- `calculatePercentage` calculates the progress percentage. -/
def calculatePercentage (current total : Int) : ℚ :=
  if total ≤ 0 then 0
  else mulFloat64 (divFloat64 (float64OfInt current) (float64OfInt total)) 100

/-! ## activity.go: the supervisor -/

/-- `FFmpegProcessingParams` contains the parameters for the FFmpeg video
processing activity. -/
structure FFmpegProcessingParams where
  InputPath : GoString
  OutputPath : GoString
  FFmpegArgs : List GoString

/-- `FFmpegProcessingResult` contains the results of the processing;
`ProcessingTime` is in nanoseconds. -/
structure FFmpegProcessingResult where
  OutputPath : GoString
  DurationMs : Int
  ProcessingTime : Int
  deriving DecidableEq

/-- The details passed to `activity.RecordHeartbeat`. -/
structure Heartbeat where
  progress : Int
  total : Int
  percent : ℚ
  deriving DecidableEq

/-- The two variables the scan loop updates. -/
structure Progress where
  totalDurationMs : Int
  currentProgressMs : Int
  deriving DecidableEq

/-- The argument list given to `exec.CommandContext(ctx, "ffmpeg", args...)`. -/
def buildArgs (params : FFmpegProcessingParams) : List GoString :=
  ([utf8 "-i", params.InputPath] ++ params.FFmpegArgs) ++ [params.OutputPath]

/-- The two assignments of one iteration of `for scanner.Scan()`. -/
def processLine (st : Progress) (line : GoString) : Progress :=
  let total :=
    if st.totalDurationMs = 0 then
      match durationRegex line with
      | some cap => timeToMilliseconds cap
      | none => st.totalDurationMs
    else st.totalDurationMs
  let current :=
    match progressRegex line with
    | some cap => timeToMilliseconds cap
    | none => st.currentProgressMs
  { totalDurationMs := total, currentProgressMs := current }

/-- The details of the heartbeat that ends an iteration. -/
def heartbeatOf (st : Progress) : Heartbeat :=
  { progress := st.currentProgressMs
    total := st.totalDurationMs
    percent := calculatePercentage st.currentProgressMs st.totalDurationMs }

/-- The loop `for scanner.Scan()` over the lines the scanner yields: the final
values of the two variables and the heartbeats recorded, one per line. -/
def scanLoop (st : Progress) : List GoString → Progress × List Heartbeat
  | [] => (st, [])
  | line :: rest =>
    let r := scanLoop (processLine st line) rest
    (r.1, heartbeatOf (processLine st line) :: r.2)

/-- An error made by `fmt.Errorf(msg + "%w", err)`: the text before the verb
and the text of the wrapped error. -/
structure WrappedError where
  msg : String
  err : String
  deriving DecidableEq

/-- What the operating system and the libraries answer during one call:
the errors of `cmd.StderrPipe()`, `cmd.Start()` and `cmd.Wait()` (`none` is
`nil`), the lines `scanner.Scan()` yields, the value of
`time.Since(startTime)`, and whether `ctx` was cancelled during the call. The
function hands `ctx` to `exec.CommandContext` and to `activity.RecordHeartbeat`
and does not read it. -/
structure Run where
  stderrPipeErr : Option String
  startErr : Option String
  lines : List GoString
  waitErr : Option String
  processingTime : Int
  ctxCancelled : Bool

/-- What one call does: the command it builds, the heartbeats the scan loop
records, and what it returns. The heartbeats of the ticker goroutine are not
part of it. -/
structure Trace where
  name : GoString
  args : List GoString
  heartbeats : List Heartbeat
  result : Except WrappedError FFmpegProcessingResult

/-- `ProcessVideoWithFFmpeg` runs ffmpeg command with the given parameters and
sends heartbeats periodically. -/
def ProcessVideoWithFFmpeg (params : FFmpegProcessingParams) (run : Run) : Trace :=
  let args := buildArgs params
  match run.stderrPipeErr with
  | some err =>
    { name := utf8 "ffmpeg", args := args, heartbeats := []
      result := Except.error ⟨"failed to create stderr pipe: ", err⟩ }
  | none =>
    match run.startErr with
    | some err =>
      { name := utf8 "ffmpeg", args := args, heartbeats := []
        result := Except.error ⟨"failed to start ffmpeg: ", err⟩ }
    | none =>
      let r := scanLoop { totalDurationMs := 0, currentProgressMs := 0 } run.lines
      match run.waitErr with
      | some err =>
        { name := utf8 "ffmpeg", args := args, heartbeats := r.2
          result := Except.error ⟨"ffmpeg processing failed: ", err⟩ }
      | none =>
        { name := utf8 "ffmpeg", args := args, heartbeats := r.2
          result := Except.ok
            { OutputPath := params.OutputPath
              DurationMs := r.1.totalDurationMs
              ProcessingTime := run.processingTime } }

/-! ## workflow.go: the activity options -/

/-- `time.Second` in nanoseconds. -/
def second : Int := 1000000000

/-- `time.Minute` in nanoseconds. -/
def minute : Int := 60 * second

/-- `time.Hour` in nanoseconds. -/
def hour : Int := 60 * minute

/-- `temporal.RetryPolicy`, the fields the workflow sets. -/
structure RetryPolicy where
  InitialInterval : Int
  BackoffCoefficient : ℚ
  MaximumInterval : Int
  MaximumAttempts : Int

/-- `workflow.ActivityOptions`, the fields the workflow sets. -/
structure ActivityOptions where
  StartToCloseTimeout : Int
  HeartbeatTimeout : Int
  RetryPolicy : RetryPolicy

/-- The `activityOptions` of `VideoProcessingWorkflow`. -/
def activityOptions : ActivityOptions :=
  { StartToCloseTimeout := 2 * hour
    HeartbeatTimeout := 30 * second
    RetryPolicy :=
      { InitialInterval := second
        BackoffCoefficient := 2
        MaximumInterval := minute * 10
        MaximumAttempts := 3 } }

/-- Modelled from the spec: the backoff the hosting engine applies, which is not
in the repository; the delay before retry `n` (counted from 1) is
`min(initial * multiplier ^ (n - 1), maximum)`. -/
def backoffDelay (p : RetryPolicy) (n : Nat) : ℚ :=
  min (p.InitialInterval * p.BackoffCoefficient ^ (n - 1)) p.MaximumInterval

/-- Modelled from the spec: the delays between the attempts of one task, one
before each attempt after the first, up to `MaximumAttempts` attempts. -/
def retryDelays (p : RetryPolicy) : List ℚ :=
  (List.range (p.MaximumAttempts.toNat - 1)).map fun i => backoffDelay p (i + 1)

/-! ## Reference notions for the statements -/

/-- The decimal value of a digit string read from the accumulator `n`. -/
def decimalFrom (n : Nat) (s : GoString) : Nat :=
  s.foldl (fun acc c => acc * 10 + (c - 48)) n

/-- The decimal value of a digit string. -/
def decimalValue (s : GoString) : Nat := decimalFrom 0 s

/-- A digit string: every byte is a decimal digit. -/
def allDigits (s : GoString) : Bool := s.all isDigit

/-- A string without its leading sign, if it has one. -/
def unsigned : GoString → GoString
  | [] => []
  | c :: cs => if c = 43 ∨ c = 45 then cs else c :: cs

/-- A valid decimal number: an optional sign and at least one digit, nothing
else. -/
def isDecimal (s : GoString) : Bool := !(unsigned s).isEmpty && allDigits (unsigned s)

/-- What a field contributes when malformed fields count as zero: its parsed
value if it is a valid decimal number, 0 otherwise. -/
def fieldValue (x : GoString) : Int := if isDecimal x then parseInt x else 0

/-- The whole-seconds part of the seconds field: the text before its first dot. -/
def wholeSecondsOf (s : GoString) : GoString := (stringsSplit dot s).headD []

/-- What the fraction of the seconds field contributes when malformed fields
count as zero, the fraction being first cut or padded to three bytes. -/
def fractionValue (s : GoString) : Int :=
  match stringsSplit dot s with
  | _ :: f :: _ => fieldValue (normalizeMs f)
  | _ => 0

/-- The value `((H*3600 + M*60 + S)*1000) + fff` of the formula. -/
def formulaValue (H M S F : GoString) : Nat :=
  (decimalValue H * 3600 + decimalValue M * 60 + decimalValue S) * 1000 + decimalValue F

/-- The stream of the end-to-end example: one duration line and five progress
lines. -/
def exampleStream : List GoString :=
  [utf8 "Duration: 00:00:10.000", utf8 "time=00:00:02.000", utf8 "time=00:00:04.000",
    utf8 "time=00:00:06.000", utf8 "time=00:00:08.000", utf8 "time=00:00:10.000"]

set_option maxRecDepth 4000

/-! ## Lemmas: int64 -/

theorem wrapInt64_of_range {x : Int} (h1 : -(2 ^ 63) ≤ x) (h2 : x < 2 ^ 63) :
    wrapInt64 x = x := by
  unfold wrapInt64
  rw [Int.emod_eq_of_lt (by omega) (by omega)]
  omega

theorem wrapInt64_emod (x : Int) : wrapInt64 x % 2 ^ 64 = x % 2 ^ 64 := by
  unfold wrapInt64
  omega

theorem wrapInt64_congr {x y : Int} (h : x % 2 ^ 64 = y % 2 ^ 64) :
    wrapInt64 x = wrapInt64 y := by
  unfold wrapInt64
  omega

theorem wrapInt64_add_left (a b : Int) : wrapInt64 (wrapInt64 a + b) = wrapInt64 (a + b) := by
  apply wrapInt64_congr
  rw [Int.add_emod, wrapInt64_emod, ← Int.add_emod]

theorem wrapInt64_mul_left (a b : Int) : wrapInt64 (wrapInt64 a * b) = wrapInt64 (a * b) := by
  apply wrapInt64_congr
  rw [Int.mul_emod, wrapInt64_emod, ← Int.mul_emod]

theorem wrapInt64_add_right (a b : Int) : wrapInt64 (a + wrapInt64 b) = wrapInt64 (a + b) := by
  rw [add_comm, wrapInt64_add_left, add_comm]

/-- The arithmetic of the last line of `timeToMilliseconds` is the exact
expression, reduced once. -/
theorem timeArith_eq (h m s ms : Int) :
    addInt64
      (mulInt64 (addInt64 (addInt64 (mulInt64 h 3600) (mulInt64 m 60)) s) 1000) ms
      = wrapInt64 ((h * 3600 + m * 60 + s) * 1000 + ms) := by
  simp only [addInt64, mulInt64, wrapInt64_add_left, wrapInt64_add_right, wrapInt64_mul_left]

/-! ## Lemmas: strings.Split -/

theorem stringsSplit_ne_nil (sep : Nat) (s : GoString) : stringsSplit sep s ≠ [] := by
  induction s with
  | nil => simp [stringsSplit]
  | cons c cs ih =>
    unfold stringsSplit
    split
    · simp
    · split <;> simp

theorem stringsSplit_of_not_mem {sep : Nat} {a : GoString} (h : sep ∉ a) :
    stringsSplit sep a = [a] := by
  induction a with
  | nil => simp [stringsSplit]
  | cons c cs ih =>
    simp only [List.mem_cons, not_or] at h
    unfold stringsSplit
    rw [if_neg (fun e => h.1 e.symm), ih h.2]

theorem stringsSplit_append {sep : Nat} {a : GoString} (r : GoString) (h : sep ∉ a) :
    stringsSplit sep (a ++ sep :: r) = a :: stringsSplit sep r := by
  induction a with
  | nil => simp [stringsSplit]
  | cons c cs ih =>
    simp only [List.mem_cons, not_or] at h
    rw [List.cons_append, stringsSplit, if_neg (fun e => h.1 e.symm), ih h.2]

/-! ## Lemmas: strconv.ParseInt -/

theorem decimalFrom_nil (n : Nat) : decimalFrom n [] = n := rfl

theorem decimalFrom_cons (n c : Nat) (cs : GoString) :
    decimalFrom n (c :: cs) = decimalFrom (n * 10 + (c - 48)) cs := rfl

theorem le_decimalFrom (n : Nat) (s : GoString) : n ≤ decimalFrom n s := by
  induction s generalizing n with
  | nil => exact Nat.le_refl n
  | cons c cs ih =>
    have := ih (n * 10 + (c - 48))
    show n ≤ decimalFrom (n * 10 + (c - 48)) cs
    omega

theorem parseUintLoop_digits (n : Nat) (ds : GoString) (hd : allDigits ds = true)
    (hv : decimalFrom n ds < 2 ^ 64) : parseUintLoop n ds = (decimalFrom n ds, none) := by
  induction ds generalizing n with
  | nil => rfl
  | cons c cs ih =>
    simp only [allDigits, List.all_cons, Bool.and_eq_true] at hd
    simp only [decimalFrom_cons] at hv ⊢
    have hle := le_decimalFrom (n * 10 + (c - 48)) cs
    have h1 : ¬ n ≥ maxUint64 / 10 + 1 := by
      simp only [maxUint64]
      omega
    have h2 : (n * 10 + (c - 48)) % 2 ^ 64 = n * 10 + (c - 48) := Nat.mod_eq_of_lt (by omega)
    have h3 : ¬ (n * 10 + (c - 48) < n * 10 ∨ n * 10 + (c - 48) > maxUint64) := by
      simp only [maxUint64]
      omega
    simp only [parseUintLoop, hd.1, if_true, h1, if_false, h2, h3]
    exact ih _ hd.2 hv

theorem parseUintLoop_syntax (n : Nat) (ds : GoString) (c : Nat) (r : GoString)
    (hd : allDigits ds = true) (hc : isDigit c = false) (hv : decimalFrom n ds < 2 ^ 64) :
    parseUintLoop n (ds ++ c :: r) = (0, some NumError.syntaxError) := by
  induction ds generalizing n with
  | nil => simp [parseUintLoop, hc]
  | cons d cs ih =>
    simp only [allDigits, List.all_cons, Bool.and_eq_true] at hd
    simp only [decimalFrom_cons] at hv
    have hle := le_decimalFrom (n * 10 + (d - 48)) cs
    have h1 : ¬ n ≥ maxUint64 / 10 + 1 := by
      simp only [maxUint64]
      omega
    have h2 : (n * 10 + (d - 48)) % 2 ^ 64 = n * 10 + (d - 48) := Nat.mod_eq_of_lt (by omega)
    have h3 : ¬ (n * 10 + (d - 48) < n * 10 ∨ n * 10 + (d - 48) > maxUint64) := by
      simp only [maxUint64]
      omega
    simp only [List.cons_append, parseUintLoop, hd.1, if_true, h1, if_false, h2, h3]
    exact ih _ hd.2 hv

theorem isDigit_bounds {c : Nat} (h : isDigit c = true) : 48 ≤ c ∧ c ≤ 57 := by
  simpa [isDigit] using h

/-- A digit string that is not empty and whose value is below `2 ^ 63` is
parsed to its value. -/
theorem parseInt_digits (ds : GoString) (hne : ds ≠ []) (hd : allDigits ds = true)
    (hv : decimalValue ds < 2 ^ 63) : parseInt ds = decimalValue ds := by
  cases ds with
  | nil => exact absurd rfl hne
  | cons c cs =>
    have hc : isDigit c = true := by
      simp only [allDigits, List.all_cons, Bool.and_eq_true] at hd
      exact hd.1
    have hb := isDigit_bounds hc
    have hs : ¬ (c = 43 ∨ c = 45) := by omega
    have hneg : decide (c = 45) = false := by
      simp only [decide_eq_false_iff_not]
      omega
    have hl := parseUintLoop_digits 0 (c :: cs) hd (by unfold decimalValue at hv; omega)
    have hw : wrapInt64 (decimalValue (c :: cs) : Int) = decimalValue (c :: cs) :=
      wrapInt64_of_range (by omega) (by omega)
    have hlt : ¬ ((decimalFrom 0 (c :: cs)) ≥ 2 ^ 63) := by
      unfold decimalValue at hv
      omega
    simp only [parseInt, parseIntErr, hs, if_false, parseUint, hl, hneg]
    rw [if_neg (List.cons_ne_nil c cs)]
    dsimp only
    rw [if_neg (fun h => hlt h.2), if_neg (fun h => Bool.false_ne_true h.1),
      if_neg Bool.false_ne_true]
    exact hw

theorem allDigits_takeWhile (s : GoString) : allDigits (s.takeWhile isDigit) = true := by
  induction s with
  | nil => rfl
  | cons c cs ih =>
    rw [List.takeWhile_cons]
    split
    · rename_i hc
      simp only [allDigits, List.all_cons, Bool.and_eq_true]
      exact ⟨hc, ih⟩
    · rfl

theorem dropWhile_of_not_allDigits (s : GoString) (h : allDigits s = false) :
    ∃ d r, s.dropWhile isDigit = d :: r ∧ isDigit d = false := by
  induction s with
  | nil => simp [allDigits] at h
  | cons c cs ih =>
    rw [List.dropWhile_cons]
    by_cases hc : isDigit c = true
    · rw [if_pos hc]
      apply ih
      simpa [allDigits, hc] using h
    · rw [if_neg hc]
      exact ⟨c, cs, rfl, by simpa using hc⟩

/-- A string with a byte that is not a digit is a syntax error, provided the
digits before that byte do not overflow. -/
theorem parseUint_syntax (s : GoString) (h : s = [] ∨ allDigits s = false)
    (hv : decimalValue (s.takeWhile isDigit) < 2 ^ 64) :
    parseUint s = (0, some NumError.syntaxError) := by
  by_cases hs : s = []
  · simp only [parseUint, hs, if_true]
  · rcases h with h | h
    · exact absurd h hs
    · obtain ⟨d, r, hdr, hd⟩ := dropWhile_of_not_allDigits s h
      have hsplit : s = s.takeWhile isDigit ++ d :: r := by
        rw [← hdr, List.takeWhile_append_dropWhile]
      simp only [parseUint, hs, if_false]
      rw [hsplit]
      exact parseUintLoop_syntax 0 _ d r (allDigits_takeWhile s) hd hv

/-- A field that is not a valid decimal number is parsed to 0, provided the
digits before its first invalid byte do not overflow 64 bits. -/
theorem parseInt_of_not_isDecimal (x : GoString) (hx : isDecimal x = false)
    (hv : decimalValue ((unsigned x).takeWhile isDigit) < 2 ^ 64) : parseInt x = 0 := by
  cases x with
  | nil => rfl
  | cons c cs =>
    have hu : unsigned (c :: cs) = [] ∨ allDigits (unsigned (c :: cs)) = false := by
      simp only [isDecimal, Bool.and_eq_false_iff, Bool.not_eq_false', List.isEmpty_iff] at hx
      exact hx
    have hp := parseUint_syntax (unsigned (c :: cs)) hu hv
    simp only [unsigned] at hp
    simp only [parseInt, parseIntErr, hp]

/-- A digit string has no colon and no dot. -/
theorem not_mem_of_allDigits {s : GoString} (h : allDigits s = true) :
    colon ∉ s ∧ dot ∉ s := by
  simp only [allDigits, List.all_eq_true] at h
  constructor
  · intro hm
    have := isDigit_bounds (h _ hm)
    simp only [colon] at this
    omega
  · intro hm
    have := isDigit_bounds (h _ hm)
    simp only [dot] at this
    omega

/-- The result for an input of three colon-separated fields. -/
theorem timeToMilliseconds_fields (h m s : GoString) (hh : colon ∉ h) (hm : colon ∉ m)
    (hs : colon ∉ s) :
    timeToMilliseconds (h ++ colon :: (m ++ colon :: s)) =
      wrapInt64 ((parseInt h * 3600 + parseInt m * 60
          + parseInt ((stringsSplit dot s).headD [])) * 1000
        + millisecondsOf (stringsSplit dot s)) := by
  unfold timeToMilliseconds
  rw [stringsSplit_append _ hh, stringsSplit_append _ hm, stringsSplit_of_not_mem hs]
  exact timeArith_eq _ _ _ _

theorem decimalFrom_lt (n : Nat) (ds : GoString) (hd : allDigits ds = true) :
    decimalFrom n ds < (n + 1) * 10 ^ ds.length := by
  induction ds generalizing n with
  | nil => simp [decimalFrom_nil]
  | cons c cs ih =>
    simp only [allDigits, List.all_cons, Bool.and_eq_true] at hd
    have hb := isDigit_bounds hd.1
    have h1 := ih (n * 10 + (c - 48)) hd.2
    have h2 : (n * 10 + (c - 48) + 1) * 10 ^ cs.length ≤ ((n + 1) * 10) * 10 ^ cs.length :=
      Nat.mul_le_mul_right _ (by omega)
    rw [decimalFrom_cons, List.length_cons, pow_succ, mul_comm (10 ^ cs.length) 10, ← mul_assoc]
    omega

theorem length_takeWhile_unsigned_le (x : GoString) :
    ((unsigned x).takeWhile isDigit).length ≤ x.length := by
  have h1 : ((unsigned x).takeWhile isDigit).length ≤ (unsigned x).length :=
    (List.takeWhile_sublist _).length_le
  have h2 : (unsigned x).length ≤ x.length := by
    cases x with
    | nil => exact Nat.le_refl _
    | cons c cs =>
      simp only [unsigned]
      split <;> simp
  omega

/-- The digits at the start of a field of at most 19 bytes do not overflow 64
bits. -/
theorem decimalValue_takeWhile_lt (x : GoString) (h : x.length ≤ 19) :
    decimalValue ((unsigned x).takeWhile isDigit) < 2 ^ 64 := by
  have h1 := decimalFrom_lt 0 _ (allDigits_takeWhile (unsigned x))
  have h2 := length_takeWhile_unsigned_le x
  have h3 : 10 ^ ((unsigned x).takeWhile isDigit).length ≤ 10 ^ 19 :=
    Nat.pow_le_pow_right (by omega) (by omega)
  unfold decimalValue
  omega

theorem length_normalizeMs (f : GoString) : (normalizeMs f).length = 3 := by
  unfold normalizeMs
  split
  · rw [List.length_take]
    omega
  · split
    · rw [List.length_append, repeatZero, List.length_replicate]
      omega
    · omega

theorem isDigit_zero : isDigit zero = true := by decide

theorem allDigits_normalizeMs (f : GoString) (hf : allDigits f = true) :
    allDigits (normalizeMs f) = true := by
  simp only [allDigits, List.all_eq_true] at hf ⊢
  unfold normalizeMs
  split
  · intro x hx
    exact hf x (List.mem_of_mem_take hx)
  · split
    · intro x hx
      rw [List.mem_append] at hx
      rcases hx with hx | hx
      · exact hf x hx
      · rw [repeatZero, List.mem_replicate] at hx
        rw [hx.2]
        exact isDigit_zero
    · exact hf

/-- The fraction of a digit string, normalised, is parsed to its value. -/
theorem parseInt_normalizeMs (f : GoString) (hf : allDigits f = true) :
    parseInt (normalizeMs f) = decimalValue (normalizeMs f) := by
  have hl := length_normalizeMs f
  have hd := allDigits_normalizeMs f hf
  have hlt := decimalFrom_lt 0 _ hd
  rw [hl] at hlt
  apply parseInt_digits _ _ hd
  · unfold decimalValue
    omega
  · intro h
    rw [h] at hl
    simp at hl

theorem stringsSplit_dot_fraction {s f : GoString} (hs : dot ∉ s) (hf : dot ∉ f) :
    stringsSplit dot (s ++ dot :: f) = [s, f] := by
  rw [stringsSplit_append _ hs, stringsSplit_of_not_mem hf]

theorem fieldValue_eq_parseInt (x : GoString)
    (hv : decimalValue ((unsigned x).takeWhile isDigit) < 2 ^ 64) : fieldValue x = parseInt x := by
  unfold fieldValue
  split
  · rfl
  · rename_i h
    rw [parseInt_of_not_isDecimal x (by simpa using h) hv]

/-! ## Lemmas: float64 rounding -/

theorem roundHalfEven_intCast (n : ℤ) : roundHalfEven (n : ℚ) = n := by
  unfold roundHalfEven
  rw [Int.floor_intCast, sub_self, if_pos (by norm_num)]

theorem floor_le_roundHalfEven (q : ℚ) : ⌊q⌋ ≤ roundHalfEven q := by
  unfold roundHalfEven
  split_ifs <;> omega

theorem roundHalfEven_le_floor_add_one (q : ℚ) : roundHalfEven q ≤ ⌊q⌋ + 1 := by
  unfold roundHalfEven
  split_ifs <;> omega

theorem roundHalfEven_mono {p q : ℚ} (h : p ≤ q) : roundHalfEven p ≤ roundHalfEven q := by
  have hf : ⌊p⌋ ≤ ⌊q⌋ := Int.floor_mono h
  rcases lt_or_eq_of_le hf with hlt | heq
  · have h1 := roundHalfEven_le_floor_add_one p
    have h2 := floor_le_roundHalfEven q
    omega
  · have hc : (⌊p⌋ : ℚ) = ⌊q⌋ := by exact_mod_cast heq
    unfold roundHalfEven
    split_ifs <;> first | omega | (exfalso; linarith)

theorem le_roundHalfEven {k : ℤ} {q : ℚ} (h : (k : ℚ) ≤ q) : k ≤ roundHalfEven q := by
  have := roundHalfEven_mono h
  rwa [roundHalfEven_intCast] at this

theorem roundHalfEven_le {k : ℤ} {q : ℚ} (h : q ≤ (k : ℚ)) : roundHalfEven q ≤ k := by
  have := roundHalfEven_mono h
  rwa [roundHalfEven_intCast] at this

theorem two_zpow_pos (e : ℤ) : (0 : ℚ) < 2 ^ e := zpow_pos (by norm_num) e

/-- The binary exponent of a positive rational, from its bounds. -/
theorem log_eq_of_bounds {x : ℚ} {e : ℤ} (h1 : 2 ^ e ≤ x) (h2 : x < 2 ^ (e + 1)) :
    Int.log 2 x = e := by
  have hx : 0 < x := lt_of_lt_of_le (two_zpow_pos e) h1
  have ha : e ≤ Int.log 2 x := (Int.zpow_le_iff_le_log (by norm_num) hx).1 (by exact_mod_cast h1)
  have hb : Int.log 2 x < e + 1 :=
    (Int.lt_zpow_iff_log_lt (by norm_num) hx).1 (by exact_mod_cast h2)
  omega

theorem log_bounds {x : ℚ} (hx : 0 < x) :
    (2 : ℚ) ^ Int.log 2 x ≤ x ∧ x < 2 ^ (Int.log 2 x + 1) := by
  constructor
  · exact_mod_cast Int.zpow_log_le_self (b := 2) (by norm_num) hx
  · exact_mod_cast Int.lt_zpow_succ_log_self (b := 2) (by norm_num) x

theorem roundFloat64_of_pos {x : ℚ} (hx : 0 < x) :
    roundFloat64 x
      = roundHalfEven (x / 2 ^ (Int.log 2 x - 52)) * 2 ^ (Int.log 2 x - 52) := by
  unfold roundFloat64
  rw [if_neg (ne_of_gt hx), abs_of_pos hx]

theorem roundFloat64_of_bounds {x : ℚ} {e : ℤ} (h1 : 2 ^ e ≤ x) (h2 : x < 2 ^ (e + 1)) :
    roundFloat64 x = roundHalfEven (x / 2 ^ (e - 52)) * 2 ^ (e - 52) := by
  rw [roundFloat64_of_pos (lt_of_lt_of_le (two_zpow_pos e) h1), log_eq_of_bounds h1 h2]

theorem two_pow_mul_ulp (e : ℤ) (n : ℕ) (m : ℤ) (h : (n : ℤ) + (e - 52) = m) :
    ((2 ^ n : ℤ) : ℚ) * 2 ^ (e - 52) = 2 ^ m := by
  rw [← h, zpow_add₀ (by norm_num : (2 : ℚ) ≠ 0), zpow_natCast]
  push_cast
  rfl

/-- A positive value in the binade of `e` is rounded into the closed binade. -/
theorem roundFloat64_mem_binade {x : ℚ} {e : ℤ} (h1 : 2 ^ e ≤ x) (h2 : x < 2 ^ (e + 1)) :
    2 ^ e ≤ roundFloat64 x ∧ roundFloat64 x ≤ 2 ^ (e + 1) := by
  have hu := two_zpow_pos (e - 52)
  rw [roundFloat64_of_bounds h1 h2]
  constructor
  · have hk : ((2 ^ 52 : ℤ) : ℚ) ≤ x / 2 ^ (e - 52) := by
      rw [le_div_iff₀ hu, two_pow_mul_ulp e 52 e (by push_cast; ring)]
      exact h1
    have := le_roundHalfEven hk
    have hc : ((2 ^ 52 : ℤ) : ℚ) ≤ (roundHalfEven (x / 2 ^ (e - 52)) : ℚ) := by exact_mod_cast this
    calc (2 : ℚ) ^ e = ((2 ^ 52 : ℤ) : ℚ) * 2 ^ (e - 52) :=
          (two_pow_mul_ulp e 52 e (by push_cast; ring)).symm
      _ ≤ _ := mul_le_mul_of_nonneg_right hc hu.le
  · have hk : x / 2 ^ (e - 52) ≤ ((2 ^ 53 : ℤ) : ℚ) := by
      rw [div_le_iff₀ hu, two_pow_mul_ulp e 53 (e + 1) (by push_cast; ring)]
      exact h2.le
    have := roundHalfEven_le hk
    have hc : (roundHalfEven (x / 2 ^ (e - 52)) : ℚ) ≤ ((2 ^ 53 : ℤ) : ℚ) := by exact_mod_cast this
    calc _ ≤ ((2 ^ 53 : ℤ) : ℚ) * 2 ^ (e - 52) := mul_le_mul_of_nonneg_right hc hu.le
      _ = 2 ^ (e + 1) := two_pow_mul_ulp e 53 (e + 1) (by push_cast; ring)

/-- Rounding is monotone on the positive rationals. -/
theorem roundFloat64_mono {x y : ℚ} (hx : 0 < x) (hxy : x ≤ y) :
    roundFloat64 x ≤ roundFloat64 y := by
  have hy : 0 < y := lt_of_lt_of_le hx hxy
  have hl : Int.log 2 x ≤ Int.log 2 y := Int.log_mono_right hx hxy
  obtain ⟨bx1, bx2⟩ := log_bounds hx
  obtain ⟨by1, by2⟩ := log_bounds hy
  rcases lt_or_eq_of_le hl with hlt | heq
  · have h1 := (roundFloat64_mem_binade bx1 bx2).2
    have h2 := (roundFloat64_mem_binade by1 by2).1
    have h3 : (2 : ℚ) ^ (Int.log 2 x + 1) ≤ 2 ^ Int.log 2 y :=
      zpow_le_zpow_right₀ (by norm_num) (by omega)
    linarith
  · rw [roundFloat64_of_pos hx, roundFloat64_of_pos hy, heq]
    have hu := two_zpow_pos (Int.log 2 y - 52)
    apply mul_le_mul_of_nonneg_right _ hu.le
    have : roundHalfEven (x / 2 ^ (Int.log 2 y - 52)) ≤ roundHalfEven (y / 2 ^ (Int.log 2 y - 52)) :=
      roundHalfEven_mono (div_le_div_of_nonneg_right hxy hu.le)
    exact_mod_cast this

/-- A value that is an integer multiple of the unit of its binade is a
`float64`: rounding leaves it unchanged. -/
theorem roundFloat64_exact {x : ℚ} (e : ℤ) (k : ℤ) (h1 : 2 ^ e ≤ x) (h2 : x < 2 ^ (e + 1))
    (hk : x = k * 2 ^ (e - 52)) : roundFloat64 x = x := by
  have hu := two_zpow_pos (e - 52)
  rw [roundFloat64_of_bounds h1 h2]
  have : x / 2 ^ (e - 52) = (k : ℚ) := by
    rw [hk, mul_div_assoc, div_self (ne_of_gt hu), mul_one]
  rw [this, roundHalfEven_intCast, ← hk]

theorem roundFloat64_one : roundFloat64 1 = 1 :=
  roundFloat64_exact 0 (2 ^ 52) (by norm_num) (by norm_num) (by norm_num)

theorem roundFloat64_two : roundFloat64 2 = 2 :=
  roundFloat64_exact 1 (2 ^ 52) (by norm_num) (by norm_num) (by norm_num)

theorem roundFloat64_quarter : roundFloat64 (1 / 4) = 1 / 4 :=
  roundFloat64_exact (-2) (2 ^ 52) (by norm_num) (by norm_num) (by norm_num)

theorem roundFloat64_25 : roundFloat64 25 = 25 :=
  roundFloat64_exact 4 (25 * 2 ^ 48) (by norm_num) (by norm_num) (by norm_num)

theorem roundFloat64_100 : roundFloat64 100 = 100 :=
  roundFloat64_exact 6 (100 * 2 ^ 46) (by norm_num) (by norm_num) (by norm_num)

theorem roundFloat64_200 : roundFloat64 200 = 200 :=
  roundFloat64_exact 7 (200 * 2 ^ 45) (by norm_num) (by norm_num) (by norm_num)

theorem roundFloat64_10000 : roundFloat64 10000 = 10000 :=
  roundFloat64_exact 13 (10000 * 2 ^ 39) (by norm_num) (by norm_num) (by norm_num)

theorem roundFloat64_30000 : roundFloat64 30000 = 30000 :=
  roundFloat64_exact 14 (30000 * 2 ^ 38) (by norm_num) (by norm_num) (by norm_num)

theorem roundFloat64_120000 : roundFloat64 120000 = 120000 :=
  roundFloat64_exact 16 (120000 * 2 ^ 36) (by norm_num) (by norm_num) (by norm_num)

theorem roundFloat64_two_pow_53 : roundFloat64 9007199254740992 = 9007199254740992 :=
  roundFloat64_exact 53 (2 ^ 52) (by norm_num) (by norm_num) (by norm_num)

/-- The integer `2 ^ 53 + 1` is not a `float64`: it lies halfway between two of
them and is rounded to the even one, `2 ^ 53`. -/
theorem roundFloat64_two_pow_53_add_one :
    roundFloat64 9007199254740993 = 9007199254740992 := by
  rw [roundFloat64_of_bounds (e := 53) (by norm_num) (by norm_num)]
  have hf : ⌊(9007199254740993 : ℚ) / 2 ^ ((53 : ℤ) - 52)⌋ = 4503599627370496 := by
    rw [Int.floor_eq_iff]
    constructor <;> norm_num
  unfold roundHalfEven
  rw [hf]
  norm_num

theorem roundHalfEven_neg (q : ℚ) : roundHalfEven (-q) = -roundHalfEven q := by
  by_cases hq : (⌊q⌋ : ℚ) = q
  · rw [← hq, ← Int.cast_neg, roundHalfEven_intCast, roundHalfEven_intCast]
  · have h1 : (⌊q⌋ : ℚ) < q := lt_of_le_of_ne (Int.floor_le q) hq
    have h2 : q < ⌊q⌋ + 1 := Int.lt_floor_add_one q
    have hf : ⌊-q⌋ = -⌊q⌋ - 1 := by
      rw [Int.floor_eq_iff]
      push_cast
      constructor <;> linarith
    have hc : (⌊-q⌋ : ℚ) = -⌊q⌋ - 1 := by
      rw [hf]
      push_cast
      ring
    unfold roundHalfEven
    rw [hc, hf]
    split_ifs <;> first | omega | (exfalso; linarith)

theorem roundFloat64_neg (x : ℚ) : roundFloat64 (-x) = -roundFloat64 x := by
  unfold roundFloat64
  by_cases hx : x = 0
  · simp [hx]
  · rw [if_neg hx, if_neg (neg_ne_zero.mpr hx), abs_neg, neg_div, roundHalfEven_neg]
    push_cast
    ring

theorem roundFloat64_zero : roundFloat64 0 = 0 := by
  unfold roundFloat64
  rw [if_pos rfl]

theorem roundFloat64_two_zpow (b : ℤ) : roundFloat64 (2 ^ b) = 2 ^ b :=
  roundFloat64_exact b (2 ^ 52) (le_refl _)
    (zpow_lt_zpow_right₀ (by norm_num) (by omega))
    (two_pow_mul_ulp b 52 b (by push_cast; ring)).symm

theorem roundFloat64_pos_bounds {x : ℚ} {a b : ℤ} (h1 : 2 ^ a ≤ x) (h2 : x ≤ 2 ^ b) :
    2 ^ a ≤ roundFloat64 x ∧ roundFloat64 x ≤ 2 ^ b := by
  have hx : 0 < x := lt_of_lt_of_le (two_zpow_pos a) h1
  constructor
  · have := roundFloat64_mono (two_zpow_pos a) h1
    rwa [roundFloat64_two_zpow] at this
  · have := roundFloat64_mono hx h2
    rwa [roundFloat64_two_zpow] at this

/-- Rounding keeps the magnitude of a value between the powers of two that
bound it. -/
theorem roundFloat64_abs_bounds {x : ℚ} {a b : ℤ} (h1 : 2 ^ a ≤ |x|) (h2 : |x| ≤ 2 ^ b) :
    2 ^ a ≤ |roundFloat64 x| ∧ |roundFloat64 x| ≤ 2 ^ b := by
  rcases le_total 0 x with hx | hx
  · rw [abs_of_nonneg hx] at h1 h2
    have h := roundFloat64_pos_bounds h1 h2
    rw [abs_of_nonneg (le_trans (two_zpow_pos a).le h.1)]
    exact h
  · rw [abs_of_nonpos hx] at h1 h2
    have h := roundFloat64_pos_bounds h1 h2
    rw [roundFloat64_neg] at h
    rw [abs_of_nonpos (by linarith [two_zpow_pos a])]
    exact h

/-- The values `calculatePercentage` goes through stay far inside the exponent
range of `float64`, so that leaving the range out of the model loses nothing:
for `int64` operands with `total > 0`, each of the two conversions, the
quotient and the product is 0 or has a magnitude between `2 ^ (-63)` and
`2 ^ 70`. -/
theorem calculatePercentage_range (current total : Int)
    (hc : -(2 ^ 63) ≤ current ∧ current < 2 ^ 63) (ht : 0 < total ∧ total < 2 ^ 63) :
    (float64OfInt current = 0 ∨
        2 ^ (0 : ℤ) ≤ |float64OfInt current| ∧ |float64OfInt current| ≤ 2 ^ (63 : ℤ))
      ∧ (2 ^ (0 : ℤ) ≤ |float64OfInt total| ∧ |float64OfInt total| ≤ 2 ^ (63 : ℤ))
      ∧ (divFloat64 (float64OfInt current) (float64OfInt total) = 0 ∨
          2 ^ (-63 : ℤ) ≤ |divFloat64 (float64OfInt current) (float64OfInt total)|
            ∧ |divFloat64 (float64OfInt current) (float64OfInt total)| ≤ 2 ^ (63 : ℤ))
      ∧ (calculatePercentage current total = 0 ∨
          2 ^ (-63 : ℤ) ≤ |calculatePercentage current total|
            ∧ |calculatePercentage current total| ≤ 2 ^ (70 : ℤ)) := by
  have hT : 2 ^ (0 : ℤ) ≤ |float64OfInt total| ∧ |float64OfInt total| ≤ 2 ^ (63 : ℤ) := by
    apply roundFloat64_abs_bounds
    · rw [abs_of_pos (by exact_mod_cast ht.1)]
      norm_num
      exact_mod_cast ht.1
    · rw [abs_of_pos (by exact_mod_cast ht.1)]
      norm_num
      exact_mod_cast ht.2.le
  have hC : float64OfInt current = 0 ∨
      2 ^ (0 : ℤ) ≤ |float64OfInt current| ∧ |float64OfInt current| ≤ 2 ^ (63 : ℤ) := by
    by_cases h0 : current = 0
    · left
      rw [h0]
      exact roundFloat64_zero
    · right
      apply roundFloat64_abs_bounds
      · have : (1 : ℤ) ≤ |current| := Int.one_le_abs h0
        have h : ((1 : ℤ) : ℚ) ≤ ((|current| : ℤ) : ℚ) := Int.cast_le.mpr this
        rw [Int.cast_abs] at h
        norm_num
        exact_mod_cast h
      · have : |current| ≤ (2 ^ 63 : ℤ) := abs_le.mpr ⟨by omega, by omega⟩
        have h : ((|current| : ℤ) : ℚ) ≤ ((2 ^ 63 : ℤ) : ℚ) := Int.cast_le.mpr this
        rw [Int.cast_abs] at h
        norm_num
        exact_mod_cast h
  have hQ : divFloat64 (float64OfInt current) (float64OfInt total) = 0 ∨
      2 ^ (-63 : ℤ) ≤ |divFloat64 (float64OfInt current) (float64OfInt total)|
        ∧ |divFloat64 (float64OfInt current) (float64OfInt total)| ≤ 2 ^ (63 : ℤ) := by
    rcases hC with h0 | ⟨c1, c2⟩
    · left
      unfold divFloat64
      rw [h0, zero_div]
      exact roundFloat64_zero
    · right
      have tpos : 0 < |float64OfInt total| := lt_of_lt_of_le (by norm_num) hT.1
      apply roundFloat64_abs_bounds
      · rw [abs_div, le_div_iff₀ tpos]
        calc (2 : ℚ) ^ (-63 : ℤ) * |float64OfInt total| ≤ 2 ^ (-63 : ℤ) * 2 ^ (63 : ℤ) :=
              mul_le_mul_of_nonneg_left hT.2 (two_zpow_pos _).le
          _ = 2 ^ (0 : ℤ) := by norm_num
          _ ≤ _ := c1
      · rw [abs_div, div_le_iff₀ tpos]
        calc |float64OfInt current| ≤ 2 ^ (63 : ℤ) := c2
          _ = 2 ^ (63 : ℤ) * 2 ^ (0 : ℤ) := by norm_num
          _ ≤ _ := mul_le_mul_of_nonneg_left hT.1 (two_zpow_pos _).le
  refine ⟨hC, hT, hQ, ?_⟩
  unfold calculatePercentage
  rw [if_neg (by omega)]
  rcases hQ with h0 | ⟨q1, q2⟩
  · left
    unfold mulFloat64
    rw [h0, zero_mul]
    exact roundFloat64_zero
  · right
    apply roundFloat64_abs_bounds
    · rw [abs_mul]
      have : |(100 : ℚ)| = 100 := abs_of_pos (by norm_num)
      rw [this]
      have q0 : 0 ≤ |divFloat64 (float64OfInt current) (float64OfInt total)| := abs_nonneg _
      linarith
    · rw [abs_mul]
      have : |(100 : ℚ)| = 100 := abs_of_pos (by norm_num)
      rw [this]
      have e : (2 : ℚ) ^ (70 : ℤ) = 2 ^ (63 : ℤ) * 128 := by norm_num
      rw [e]
      have q0 := two_zpow_pos (63 : ℤ)
      nlinarith

/-! ## The progress parser: time conversion -/

/-- C1, as amended: for digit strings `H`, `M`, `S` that are not empty and a
three-digit `F`, when the value `((H*3600 + M*60 + S)*1000) + fff` is below
`2 ^ 63`, `timeToMilliseconds` of `H:M:S.F` is that value. -/
theorem timeToMilliseconds_wellFormed (H M S F : GoString)
    (hH : H ≠ [] ∧ allDigits H = true) (hM : M ≠ [] ∧ allDigits M = true)
    (hS : S ≠ [] ∧ allDigits S = true) (hF : allDigits F = true ∧ F.length = 3)
    (hv : formulaValue H M S F < 2 ^ 63) :
    timeToMilliseconds (H ++ colon :: (M ++ colon :: (S ++ dot :: F))) = formulaValue H M S F := by
  have hnS := not_mem_of_allDigits hS.2
  have hnF := not_mem_of_allDigits hF.1
  have hc : colon ∉ S ++ dot :: F := by
    simp only [List.mem_append, List.mem_cons, not_or]
    exact ⟨hnS.1, by decide, hnF.1⟩
  rw [timeToMilliseconds_fields H M _ (not_mem_of_allDigits hH.2).1
    (not_mem_of_allDigits hM.2).1 hc, stringsSplit_dot_fraction hnS.2 hnF.2]
  have hn : normalizeMs F = F := by
    unfold normalizeMs
    rw [if_neg (by omega), if_neg (by omega)]
  unfold formulaValue at hv
  have e1 := parseInt_digits H hH.1 hH.2 (by omega)
  have e2 := parseInt_digits M hM.1 hM.2 (by omega)
  have e3 := parseInt_digits S hS.1 hS.2 (by omega)
  have e4 := parseInt_digits F (by intro h; rw [h] at hF; simp at hF) hF.1 (by omega)
  simp only [List.headD_cons, millisecondsOf, hn, e1, e2, e3, e4, formulaValue]
  rw [wrapInt64_of_range (by omega) (by omega)]
  push_cast
  ring

/-- The amended C1 at the example of the specification: `"00:01:05.250"` gives
65250. -/
theorem timeToMilliseconds_wellFormed_witness :
    timeToMilliseconds (utf8 "00:01:05.250") = 65250 :=
  timeToMilliseconds_wellFormed (utf8 "00") (utf8 "01") (utf8 "05") (utf8 "250")
    (by decide) (by decide) (by decide) (by decide) (by decide)

/-- C1 as stated fails: `"2562047788016:00:00.000"` is three colon-separated
digit fields and a three-digit fraction, its value by the formula is
9223372036857600000, and the `int64` result is negative. -/
theorem timeToMilliseconds_wellFormed_counterexample :
    allDigits (utf8 "2562047788016") = true ∧ allDigits (utf8 "00") = true
      ∧ allDigits (utf8 "000") = true
      ∧ formulaValue (utf8 "2562047788016") (utf8 "00") (utf8 "00") (utf8 "000")
          = 9223372036857600000
      ∧ timeToMilliseconds (utf8 "2562047788016:00:00.000") = -9223372036851951616 := by
  decide

/-- C4: for `H:M:S.f` with `f` a digit string, the millisecond part is the value
of the first three digits of `f` when `f` has more than three, and the value of
`f` padded with zeros to three digits otherwise; without a fraction it is 0;
`"1.5"` gives 500, `"1.123456"` gives 123, `"1."` and `"1"` give 0. -/
theorem timeToMilliseconds_fraction (h m s f : GoString) (hh : colon ∉ h) (hm : colon ∉ m)
    (hs : colon ∉ s ∧ dot ∉ s) (hf : allDigits f = true) :
    millisecondsOf (stringsSplit dot (s ++ dot :: f))
        = (if f.length > 3 then decimalValue (f.take 3)
            else decimalValue (f ++ repeatZero (3 - f.length)) : Nat)
      ∧ timeToMilliseconds (h ++ colon :: (m ++ colon :: (s ++ dot :: f)))
        = wrapInt64 ((parseInt h * 3600 + parseInt m * 60 + parseInt s) * 1000
            + (if f.length > 3 then decimalValue (f.take 3)
                else decimalValue (f ++ repeatZero (3 - f.length)) : Nat))
      ∧ millisecondsOf (stringsSplit dot s) = 0
      ∧ timeToMilliseconds (h ++ colon :: (m ++ colon :: s))
        = wrapInt64 ((parseInt h * 3600 + parseInt m * 60 + parseInt s) * 1000 + 0)
      ∧ millisecondsOf (stringsSplit dot (utf8 "1.5")) = 500
      ∧ millisecondsOf (stringsSplit dot (utf8 "1.123456")) = 123
      ∧ millisecondsOf (stringsSplit dot (utf8 "1.")) = 0
      ∧ millisecondsOf (stringsSplit dot (utf8 "1")) = 0 := by
  have hnf := not_mem_of_allDigits hf
  have hc : colon ∉ s ++ dot :: f := by
    simp only [List.mem_append, List.mem_cons, not_or]
    exact ⟨hs.1, by decide, hnf.1⟩
  have hms : millisecondsOf (stringsSplit dot (s ++ dot :: f))
      = (if f.length > 3 then decimalValue (f.take 3)
          else decimalValue (f ++ repeatZero (3 - f.length)) : Nat) := by
    rw [stringsSplit_dot_fraction hs.2 hnf.2]
    simp only [millisecondsOf]
    rw [parseInt_normalizeMs f hf]
    congr 1
    unfold normalizeMs
    split
    · rfl
    · split
      · rfl
      · have h3 : 3 - f.length = 0 := by omega
        rw [h3, repeatZero, List.replicate_zero, List.append_nil]
  refine ⟨hms, ?_, ?_, ?_, by decide, by decide, by decide, by decide⟩
  · rw [timeToMilliseconds_fields h m _ hh hm hc, hms, stringsSplit_dot_fraction hs.2 hnf.2]
    rfl
  · rw [stringsSplit_of_not_mem hs.2]
    rfl
  · rw [timeToMilliseconds_fields h m s hh hm hs.1, stringsSplit_of_not_mem hs.2]
    rfl

/-- C4 at `"00:00:01.5"`: the fraction `"5"` counts as 500 milliseconds. -/
theorem timeToMilliseconds_fraction_witness :
    timeToMilliseconds (utf8 "00:00:01.5") = 1500 :=
  (timeToMilliseconds_fraction (utf8 "00") (utf8 "00") (utf8 "01") (utf8 "5")
    (by decide) (by decide) (by decide) (by decide)).2.1

/-- C3, as amended: `timeToMilliseconds` returns 0 for an input that does not
have three colon-separated fields; for an input with three fields, when the
digits before the first invalid byte of the hours, minutes and whole-seconds
fields do not overflow 64 bits, each of these fields that is not a valid
decimal number counts as 0, the fraction counts as 0 when it is not a valid
decimal number after it has been cut or padded to three bytes, and the other
fields count with their parsed value in the formula, computed in `int64`. -/
theorem timeToMilliseconds_malformed :
    (∀ t : GoString, (stringsSplit colon t).length ≠ 3 → timeToMilliseconds t = 0)
    ∧ ∀ h m s : GoString, colon ∉ h → colon ∉ m → colon ∉ s →
        decimalValue ((unsigned h).takeWhile isDigit) < 2 ^ 64 →
        decimalValue ((unsigned m).takeWhile isDigit) < 2 ^ 64 →
        decimalValue ((unsigned (wholeSecondsOf s)).takeWhile isDigit) < 2 ^ 64 →
        timeToMilliseconds (h ++ colon :: (m ++ colon :: s))
          = wrapInt64 ((fieldValue h * 3600 + fieldValue m * 60
              + fieldValue (wholeSecondsOf s)) * 1000 + fractionValue s) := by
  constructor
  · intro t ht
    unfold timeToMilliseconds
    split
    · rename_i heq
      rw [heq] at ht
      exact absurd rfl ht
    · rfl
  · intro h m s hh hm hs oh om os
    rw [timeToMilliseconds_fields h m s hh hm hs, fieldValue_eq_parseInt h oh,
      fieldValue_eq_parseInt m om, fieldValue_eq_parseInt _ os]
    have hfr : millisecondsOf (stringsSplit dot s) = fractionValue s := by
      unfold millisecondsOf fractionValue
      split
      · rename_i f _
        rw [fieldValue_eq_parseInt _
          (decimalValue_takeWhile_lt _ (by rw [length_normalizeMs]; omega))]
      · rfl
    rw [hfr]
    rfl

/-- The amended C3 at `"1x:2:3.5"`: the hours field `"1x"` is not a valid
decimal number and counts as 0. -/
theorem timeToMilliseconds_malformed_witness :
    isDecimal (utf8 "1x") = false ∧ timeToMilliseconds (utf8 "1x:2:3.5") = 123500 :=
  ⟨by decide,
    timeToMilliseconds_malformed.2 (utf8 "1x") (utf8 "2") (utf8 "3.5")
      (by decide) (by decide) (by decide) (by decide) (by decide) (by decide)⟩

/-- C3 as stated fails: in `"0:0:0.1234x"` the fraction `"1234x"` is not a valid
decimal number, and it counts as 123, not as 0. -/
theorem timeToMilliseconds_malformed_counterexample :
    isDecimal (utf8 "1234x") = false
      ∧ stringsSplit dot (utf8 "0.1234x") = [utf8 "0", utf8 "1234x"]
      ∧ timeToMilliseconds (utf8 "0:0:0.1234x") = 123 := by
  decide

/-! ## The progress parser: percentage -/

/-- C5, as amended: `calculatePercentage` is 0 whenever `total <= 0`; otherwise
it is the `float64` value of `float64(current) / float64(total) * 100`, each
operation rounded to nearest, and is not clamped: 30000 of 120000 gives 25, 2 of
1 gives 200, and every `current > total > 0` gives a value of at least 100. -/
theorem calculatePercentage_spec (current total : Int) :
    (total ≤ 0 → calculatePercentage current total = 0)
      ∧ (0 < total → calculatePercentage current total
          = roundFloat64 (roundFloat64 (roundFloat64 current / roundFloat64 total) * 100))
      ∧ calculatePercentage 30000 120000 = 25
      ∧ calculatePercentage 2 1 = 200
      ∧ (0 < total → total < current → 100 ≤ calculatePercentage current total) := by
  refine ⟨?_, ?_, ?_, ?_, ?_⟩
  · intro h
    unfold calculatePercentage
    rw [if_pos h]
  · intro h
    unfold calculatePercentage
    rw [if_neg (by omega)]
    rfl
  · unfold calculatePercentage mulFloat64 divFloat64 float64OfInt
    rw [if_neg (by decide)]
    push_cast
    have e1 : (30000 : ℚ) / 120000 = 1 / 4 := by norm_num
    have e2 : (1 / 4 : ℚ) * 100 = 25 := by norm_num
    rw [roundFloat64_30000, roundFloat64_120000, e1, roundFloat64_quarter, e2]
    exact roundFloat64_25
  · unfold calculatePercentage mulFloat64 divFloat64 float64OfInt
    rw [if_neg (by decide)]
    push_cast
    have e1 : (2 : ℚ) / 1 = 2 := by norm_num
    have e2 : (2 : ℚ) * 100 = 200 := by norm_num
    rw [roundFloat64_two, roundFloat64_one, e1, roundFloat64_two, e2]
    exact roundFloat64_200
  · intro ht hc
    unfold calculatePercentage mulFloat64 divFloat64 float64OfInt
    rw [if_neg (by omega)]
    have h1 : (1 : ℚ) ≤ (total : ℚ) := by exact_mod_cast ht
    have h2 : (total : ℚ) ≤ (current : ℚ) := by exact_mod_cast hc.le
    have ft : 1 ≤ roundFloat64 total := by
      have := roundFloat64_mono (by norm_num : (0 : ℚ) < 1) h1
      rwa [roundFloat64_one] at this
    have fc : roundFloat64 total ≤ roundFloat64 current :=
      roundFloat64_mono (by linarith) h2
    have hq : 1 ≤ roundFloat64 current / roundFloat64 total := by
      rw [le_div_iff₀ (by linarith)]
      linarith
    have fq : 1 ≤ roundFloat64 (roundFloat64 current / roundFloat64 total) := by
      have := roundFloat64_mono (by norm_num : (0 : ℚ) < 1) hq
      rwa [roundFloat64_one] at this
    have := roundFloat64_mono (by norm_num : (0 : ℚ) < 100)
      (by linarith : (100 : ℚ) ≤ roundFloat64 (roundFloat64 current / roundFloat64 total) * 100)
    rwa [roundFloat64_100] at this

/-- The amended C5 at `total = 0` and at `current = 3`, `total = 2`. -/
theorem calculatePercentage_spec_witness :
    calculatePercentage 5 0 = 0 ∧ 100 ≤ calculatePercentage 3 2 :=
  ⟨(calculatePercentage_spec 5 0).1 (by decide),
    (calculatePercentage_spec 3 2).2.2.2.2 (by decide) (by decide)⟩

/-- C5 as stated fails: `current = 2 ^ 53 + 1` is above `total = 2 ^ 53`, both
are `int64` values, and the percentage is exactly 100, not above 100. -/
theorem calculatePercentage_spec_counterexample :
    (0 : Int) < 9007199254740992 ∧ (9007199254740992 : Int) < 9007199254740993
      ∧ (9007199254740993 : Int) < 2 ^ 63
      ∧ calculatePercentage 9007199254740993 9007199254740992 = 100 := by
  refine ⟨by decide, by decide, by decide, ?_⟩
  unfold calculatePercentage mulFloat64 divFloat64 float64OfInt
  rw [if_neg (by decide)]
  push_cast
  have e1 : (9007199254740992 : ℚ) / 9007199254740992 = 1 := by norm_num
  have e2 : (1 : ℚ) * 100 = 100 := by norm_num
  rw [roundFloat64_two_pow_53_add_one, roundFloat64_two_pow_53, e1, roundFloat64_one, e2]
  exact roundFloat64_100

/-! ## The supervisor: command, failures -/

/-- C8: the command built is `ffmpeg` with the arguments `-i`, the input path,
the option tokens in their order, and the output path: `len(FFmpegArgs) + 3`
arguments, the first two `-i` and the input path, the last the output path,
the tokens unchanged in between. -/
theorem ProcessVideoWithFFmpeg_args (params : FFmpegProcessingParams) (run : Run) :
    (ProcessVideoWithFFmpeg params run).name = utf8 "ffmpeg"
      ∧ (ProcessVideoWithFFmpeg params run).args
          = [utf8 "-i", params.InputPath] ++ params.FFmpegArgs ++ [params.OutputPath]
      ∧ (ProcessVideoWithFFmpeg params run).args.length = params.FFmpegArgs.length + 3
      ∧ (ProcessVideoWithFFmpeg params run).args.take 2 = [utf8 "-i", params.InputPath]
      ∧ (ProcessVideoWithFFmpeg params run).args.getLast? = some params.OutputPath
      ∧ ((ProcessVideoWithFFmpeg params run).args.drop 2).take params.FFmpegArgs.length
          = params.FFmpegArgs := by
  have hn : (ProcessVideoWithFFmpeg params run).name = utf8 "ffmpeg" := by
    unfold ProcessVideoWithFFmpeg
    split
    · rfl
    · split
      · rfl
      · split <;> rfl
  have ha : (ProcessVideoWithFFmpeg params run).args = buildArgs params := by
    unfold ProcessVideoWithFFmpeg
    split
    · rfl
    · split
      · rfl
      · split <;> rfl
  refine ⟨hn, ?_, ?_, ?_, ?_, ?_⟩
  · rw [ha, buildArgs]
  · rw [ha, buildArgs]
    simp only [List.length_append, List.length_cons, List.length_nil]
    omega
  · rw [ha, buildArgs]
    rfl
  · rw [ha, buildArgs, List.getLast?_append]
    rfl
  · rw [ha, buildArgs]
    simp

/-- C2, at the failing input: the first duration line `Duration: 00:00:00.000`
matches and converts to 0, and the loop ends with 10000, the value of the
second duration line. -/
theorem scanLoop_duration_overwritten :
    durationRegex (utf8 "Duration: 00:00:00.000") = some (utf8 "00:00:00.000")
      ∧ timeToMilliseconds (utf8 "00:00:00.000") = 0
      ∧ (scanLoop { totalDurationMs := 0, currentProgressMs := 0 }
          [utf8 "Duration: 00:00:00.000", utf8 "Duration: 00:00:10.000"]).1.totalDurationMs
          = 10000 := by
  decide

/-- C7, as amended: a result is returned exactly when the pipe, the start and
the wait succeed; a failure carries one of three message texts, chosen by the
call that failed, with the error of that call; the three texts differ; and the
result does not depend on whether the context was cancelled, so that a
cancellation has no failure of its own. -/
theorem ProcessVideoWithFFmpeg_failures (params : FFmpegProcessingParams) (run : Run) :
    ((∃ r, (ProcessVideoWithFFmpeg params run).result = Except.ok r)
        ↔ run.stderrPipeErr = none ∧ run.startErr = none ∧ run.waitErr = none)
      ∧ (∀ e, run.stderrPipeErr = some e →
          (ProcessVideoWithFFmpeg params run).result
            = Except.error ⟨"failed to create stderr pipe: ", e⟩)
      ∧ (∀ e, run.stderrPipeErr = none → run.startErr = some e →
          (ProcessVideoWithFFmpeg params run).result
            = Except.error ⟨"failed to start ffmpeg: ", e⟩)
      ∧ (∀ e, run.stderrPipeErr = none → run.startErr = none → run.waitErr = some e →
          (ProcessVideoWithFFmpeg params run).result
            = Except.error ⟨"ffmpeg processing failed: ", e⟩)
      ∧ ("failed to create stderr pipe: " ≠ "failed to start ffmpeg: "
          ∧ "failed to create stderr pipe: " ≠ "ffmpeg processing failed: "
          ∧ "failed to start ffmpeg: " ≠ "ffmpeg processing failed: ")
      ∧ ∀ b, (ProcessVideoWithFFmpeg params { run with ctxCancelled := b }).result
          = (ProcessVideoWithFFmpeg params run).result := by
  refine ⟨?_, ?_, ?_, ?_, by decide, ?_⟩
  · unfold ProcessVideoWithFFmpeg
    cases hp : run.stderrPipeErr with
    | some e => simp
    | none =>
      cases hs : run.startErr with
      | some e => simp
      | none =>
        cases hw : run.waitErr with
        | some e => simp
        | none => simp
  · intro e hp
    unfold ProcessVideoWithFFmpeg
    rw [hp]
  · intro e hp hs
    unfold ProcessVideoWithFFmpeg
    rw [hp, hs]
  · intro e hp hs hw
    unfold ProcessVideoWithFFmpeg
    rw [hp, hs, hw]
  · intro b
    rfl

/-- The amended C7 at a run whose start fails. -/
theorem ProcessVideoWithFFmpeg_failures_witness :
    (ProcessVideoWithFFmpeg ⟨utf8 "in.mp4", utf8 "out.mp4", []⟩
        ⟨none, some "exec: not found", [], none, 0, false⟩).result
      = Except.error ⟨"failed to start ffmpeg: ", "exec: not found"⟩ :=
  (ProcessVideoWithFFmpeg_failures ⟨utf8 "in.mp4", utf8 "out.mp4", []⟩
    ⟨none, some "exec: not found", [], none, 0, false⟩).2.2.1 "exec: not found" rfl rfl

/-- C7 as stated fails: a run cancelled while the process runs, the process
being killed, and a run never cancelled whose process is killed return the same
failure. -/
theorem ProcessVideoWithFFmpeg_failures_counterexample :
    (ProcessVideoWithFFmpeg ⟨utf8 "in.mp4", utf8 "out.mp4", []⟩
        ⟨none, none, [], some "signal: killed", 0, true⟩).result
      = (ProcessVideoWithFFmpeg ⟨utf8 "in.mp4", utf8 "out.mp4", []⟩
          ⟨none, none, [], some "signal: killed", 0, false⟩).result
    ∧ (ProcessVideoWithFFmpeg ⟨utf8 "in.mp4", utf8 "out.mp4", []⟩
        ⟨none, none, [], some "signal: killed", 0, true⟩).result
      = Except.error ⟨"ffmpeg processing failed: ", "signal: killed"⟩ :=
  ⟨rfl, rfl⟩

/-! ## The orchestration policy -/

/-- C9: the values of the policy, its invariants, and the delays between the
attempts under the backoff formula: one second, then two seconds, two retries
and no fourth attempt. -/
theorem activityOptions_policy :
    activityOptions.StartToCloseTimeout = 2 * 3600 * 1000000000
      ∧ activityOptions.HeartbeatTimeout = 30 * 1000000000
      ∧ activityOptions.RetryPolicy.InitialInterval = 1000000000
      ∧ activityOptions.RetryPolicy.BackoffCoefficient = 2
      ∧ activityOptions.RetryPolicy.MaximumInterval = 600 * 1000000000
      ∧ activityOptions.RetryPolicy.MaximumAttempts = 3
      ∧ 1 ≤ activityOptions.RetryPolicy.BackoffCoefficient
      ∧ activityOptions.RetryPolicy.InitialInterval ≤ activityOptions.RetryPolicy.MaximumInterval
      ∧ 1 ≤ activityOptions.RetryPolicy.MaximumAttempts
      ∧ activityOptions.HeartbeatTimeout < activityOptions.StartToCloseTimeout
      ∧ retryDelays activityOptions.RetryPolicy = [(second : ℚ), 2 * (second : ℚ)]
      ∧ (retryDelays activityOptions.RetryPolicy).length + 1
          = activityOptions.RetryPolicy.MaximumAttempts := by
  refine ⟨by decide, by decide, by decide, rfl, by decide, by decide, ?_, by decide, by decide,
    by decide, ?_, ?_⟩
  · norm_num [activityOptions]
  · have h2 : Int.toNat 3 - 1 = 2 := by decide
    norm_num [retryDelays, backoffDelay, activityOptions, second, minute, h2, List.range_succ]
  · have h2 : Int.toNat 3 - 1 = 2 := by decide
    simp [retryDelays, activityOptions, h2]

/-! ## The supervisor: the scan loop end to end -/

theorem scanLoop_fst (st : Progress) (ls : List GoString) :
    (scanLoop st ls).1 = ls.foldl processLine st := by
  induction ls generalizing st with
  | nil => rfl
  | cons l rest ih => exact ih (processLine st l)

theorem scanLoop_snd_length (st : Progress) (ls : List GoString) :
    (scanLoop st ls).2.length = ls.length := by
  induction ls generalizing st with
  | nil => rfl
  | cons l rest ih =>
    show (heartbeatOf (processLine st l) :: (scanLoop (processLine st l) rest).2).length = _
    rw [List.length_cons, List.length_cons, ih]

theorem scanLoop_snd_getElem? (st : Progress) (ls : List GoString) (i : Nat)
    (h : i < ls.length) :
    (scanLoop st ls).2[i]? = some (heartbeatOf (scanLoop st (ls.take (i + 1))).1) := by
  induction ls generalizing st i with
  | nil => simp at h
  | cons l rest ih =>
    have hc : scanLoop st (l :: rest)
        = ((scanLoop (processLine st l) rest).1,
            heartbeatOf (processLine st l) :: (scanLoop (processLine st l) rest).2) := rfl
    cases i with
    | zero =>
      rw [hc, List.getElem?_cons_zero]
      rfl
    | succ j =>
      have hj : j < rest.length := by simpa using h
      rw [hc, List.getElem?_cons_succ, List.take_succ_cons, ih (processLine st l) j hj]
      rfl

theorem processLine_total_of_no_duration (st : Progress) (l : GoString)
    (h : durationRegex l = none) : (processLine st l).totalDurationMs = st.totalDurationMs := by
  simp only [processLine, h]
  split <;> rfl

theorem scanLoop_total_of_no_duration (st : Progress) (ls : List GoString)
    (h : ∀ l ∈ ls, durationRegex l = none) :
    (scanLoop st ls).1.totalDurationMs = st.totalDurationMs := by
  induction ls generalizing st with
  | nil => rfl
  | cons l rest ih =>
    have h1 := ih (processLine st l) (fun x hx => h x (List.mem_cons_of_mem _ hx))
    have h2 := processLine_total_of_no_duration st l (h l (List.mem_cons_self _ _))
    show (scanLoop (processLine st l) rest).1.totalDurationMs = _
    rw [h1, h2]

theorem calculatePercentage_10000 : calculatePercentage 10000 10000 = 100 := by
  unfold calculatePercentage mulFloat64 divFloat64 float64OfInt
  rw [if_neg (by decide)]
  push_cast
  have e1 : (10000 : ℚ) / 10000 = 1 := by norm_num
  have e2 : (1 : ℚ) * 100 = 100 := by norm_num
  rw [roundFloat64_10000, e1, roundFloat64_one, e2]
  exact roundFloat64_100

/-- C6: when the pipe, the start and the wait succeed, the result carries the
output path of the parameters and the total duration the loop ends with, which
is 0 if no line has a duration; one heartbeat is recorded per line, with the
progress, total and percentage current after that line; for the example stream
the duration is 10000 and the last heartbeat has percentage 100. -/
theorem ProcessVideoWithFFmpeg_cleanExit (params : FFmpegProcessingParams) (run : Run)
    (hp : run.stderrPipeErr = none) (hs : run.startErr = none) (hw : run.waitErr = none) :
    (ProcessVideoWithFFmpeg params run).result
        = Except.ok
            { OutputPath := params.OutputPath
              DurationMs := (scanLoop ⟨0, 0⟩ run.lines).1.totalDurationMs
              ProcessingTime := run.processingTime }
      ∧ ((∀ l ∈ run.lines, durationRegex l = none) →
          (scanLoop ⟨0, 0⟩ run.lines).1.totalDurationMs = 0)
      ∧ (ProcessVideoWithFFmpeg params run).heartbeats.length = run.lines.length
      ∧ (∀ i, i < run.lines.length →
          (ProcessVideoWithFFmpeg params run).heartbeats[i]?
            = some
                { progress := (scanLoop ⟨0, 0⟩ (run.lines.take (i + 1))).1.currentProgressMs
                  total := (scanLoop ⟨0, 0⟩ (run.lines.take (i + 1))).1.totalDurationMs
                  percent := calculatePercentage
                    (scanLoop ⟨0, 0⟩ (run.lines.take (i + 1))).1.currentProgressMs
                    (scanLoop ⟨0, 0⟩ (run.lines.take (i + 1))).1.totalDurationMs })
      ∧ (run.lines = exampleStream →
          (ProcessVideoWithFFmpeg params run).result
              = Except.ok
                  { OutputPath := params.OutputPath
                    DurationMs := 10000
                    ProcessingTime := run.processingTime }
            ∧ ∃ hb ∈ (ProcessVideoWithFFmpeg params run).heartbeats, hb.percent = 100) := by
  have hr : (ProcessVideoWithFFmpeg params run).result
      = Except.ok
          { OutputPath := params.OutputPath
            DurationMs := (scanLoop ⟨0, 0⟩ run.lines).1.totalDurationMs
            ProcessingTime := run.processingTime } := by
    unfold ProcessVideoWithFFmpeg
    rw [hp, hs, hw]
  have hh : (ProcessVideoWithFFmpeg params run).heartbeats = (scanLoop ⟨0, 0⟩ run.lines).2 := by
    unfold ProcessVideoWithFFmpeg
    rw [hp, hs, hw]
  refine ⟨hr, ?_, ?_, ?_, ?_⟩
  · intro h
    exact scanLoop_total_of_no_duration ⟨0, 0⟩ run.lines h
  · rw [hh, scanLoop_snd_length]
  · intro i hi
    rw [hh, scanLoop_snd_getElem? ⟨0, 0⟩ run.lines i hi]
    rfl
  · intro hl
    have hfin : (scanLoop ⟨0, 0⟩ exampleStream).1 = ⟨10000, 10000⟩ := by
      rw [scanLoop_fst]
      decide
    constructor
    · rw [hr, hl, hfin]
    · have h5 := scanLoop_snd_getElem? ⟨0, 0⟩ exampleStream 5 (by decide)
      have ht : exampleStream.take (5 + 1) = exampleStream := rfl
      rw [ht, hfin] at h5
      refine ⟨heartbeatOf ⟨10000, 10000⟩, ?_, ?_⟩
      · rw [hh, hl]
        exact List.getElem?_mem h5
      · exact calculatePercentage_10000

/-- C6 at the example stream with a clean exit. -/
theorem ProcessVideoWithFFmpeg_cleanExit_witness :
    (ProcessVideoWithFFmpeg ⟨utf8 "in.mp4", utf8 "out.mp4", []⟩
        ⟨none, none, exampleStream, none, 7, false⟩).result
        = Except.ok { OutputPath := utf8 "out.mp4", DurationMs := 10000, ProcessingTime := 7 }
      ∧ ∃ hb ∈ (ProcessVideoWithFFmpeg ⟨utf8 "in.mp4", utf8 "out.mp4", []⟩
          ⟨none, none, exampleStream, none, 7, false⟩).heartbeats, hb.percent = 100 :=
  (ProcessVideoWithFFmpeg_cleanExit ⟨utf8 "in.mp4", utf8 "out.mp4", []⟩
    ⟨none, none, exampleStream, none, 7, false⟩ rfl rfl rfl).2.2.2.2 rfl

theorem processLine_total_of_ne_zero (st : Progress) (l : GoString)
    (h : st.totalDurationMs ≠ 0) : (processLine st l).totalDurationMs = st.totalDurationMs := by
  simp only [processLine, h, if_false]

theorem scanLoop_total_of_ne_zero (st : Progress) (ls : List GoString)
    (h : st.totalDurationMs ≠ 0) : (scanLoop st ls).1.totalDurationMs = st.totalDurationMs := by
  induction ls generalizing st with
  | nil => rfl
  | cons l rest ih =>
    have h2 := processLine_total_of_ne_zero st l h
    have h1 := ih (processLine st l) (by rw [h2]; exact h)
    show (scanLoop (processLine st l) rest).1.totalDurationMs = _
    rw [h1, h2]

/-- What the loop does guarantee about the duration: when the first line with a
duration converts to a value that is not 0, the loop ends with that value,
whatever lines follow. -/
theorem scanLoop_total_first_nonzero (c : Int) (pre post : List GoString) (l cap : GoString)
    (hpre : ∀ x ∈ pre, durationRegex x = none) (hl : durationRegex l = some cap)
    (hne : timeToMilliseconds cap ≠ 0) :
    (scanLoop ⟨0, c⟩ (pre ++ l :: post)).1.totalDurationMs = timeToMilliseconds cap := by
  induction pre generalizing c with
  | nil =>
    have h1 : (processLine ⟨0, c⟩ l).totalDurationMs = timeToMilliseconds cap := by
      simp only [processLine, hl, if_true]
    show (scanLoop (processLine ⟨0, c⟩ l) post).1.totalDurationMs = _
    rw [scanLoop_total_of_ne_zero _ _ (by rw [h1]; exact hne), h1]
  | cons x rest ih =>
    have h0 := processLine_total_of_no_duration ⟨0, c⟩ x (hpre x (List.mem_cons_self _ _))
    have hst : processLine ⟨0, c⟩ x = ⟨0, (processLine ⟨0, c⟩ x).currentProgressMs⟩ := by
      cases hp : processLine ⟨0, c⟩ x with
      | mk t cur =>
        rw [hp] at h0
        simp only at h0
        rw [h0]
    show (scanLoop (processLine ⟨0, c⟩ x) (rest ++ l :: post)).1.totalDurationMs = _
    rw [hst]
    exact ih _ (fun y hy => hpre y (List.mem_cons_of_mem _ hy))

end FFmpegPipeline
